import Mathlib

/-
Verification development for the documented yup-style runtime
schema-validation engine: the immutable schema object model, the
transform (cast) pipeline, the test (validation) pipeline, reference
resolution between object fields, and error aggregation.

The repository holds the documentation of the engine; the executable
implementation itself is not part of the repository, so the model
below is built from the specification and the API documents.
Every definition carrying a doc comment that starts with
Modelled from the spec names what it stands for.
-/

set_option maxHeartbeats 1000000

namespace YupModel

/-- Modelled from the spec: generic structured runtime data (mappings,
sequences, scalars) handled by the engine.  Numbers are restricted to
integers plus the NaN-like invalid marker; dates are integer timestamps
plus the invalid-date sentinel; undefined and null are distinct absent
values, as in the documented value model. -/
inductive Value where
  | undef
  | null
  | bool (b : Bool)
  | num (n : Int)
  | nan
  | str (s : String)
  | date (t : Int)
  | invalidDate
  | arr (elems : List Value)
  | obj (kvs : List (String × Value))
deriving Repr

mutual

def valueDecEq : (a b : Value) → Decidable (a = b)
  | .undef, .undef => isTrue rfl
  | .null, .null => isTrue rfl
  | .bool a, .bool b =>
      match decEq a b with
      | isTrue h => isTrue (by rw [h])
      | isFalse h => isFalse (fun hh => h (Value.bool.inj hh))
  | .num a, .num b =>
      match decEq a b with
      | isTrue h => isTrue (by rw [h])
      | isFalse h => isFalse (fun hh => h (Value.num.inj hh))
  | .nan, .nan => isTrue rfl
  | .str a, .str b =>
      match decEq a b with
      | isTrue h => isTrue (by rw [h])
      | isFalse h => isFalse (fun hh => h (Value.str.inj hh))
  | .date a, .date b =>
      match decEq a b with
      | isTrue h => isTrue (by rw [h])
      | isFalse h => isFalse (fun hh => h (Value.date.inj hh))
  | .invalidDate, .invalidDate => isTrue rfl
  | .arr xs, .arr ys =>
      match valueListDecEq xs ys with
      | isTrue h => isTrue (by rw [h])
      | isFalse h => isFalse (fun hh => h (Value.arr.inj hh))
  | .obj xs, .obj ys =>
      match valueKVDecEq xs ys with
      | isTrue h => isTrue (by rw [h])
      | isFalse h => isFalse (fun hh => h (Value.obj.inj hh))
  | .undef, .null | .undef, .bool _ | .undef, .num _ | .undef, .nan | .undef, .str _ | .undef, .date _ | .undef, .invalidDate | .undef, .arr _ | .undef, .obj _ => isFalse (fun h => Value.noConfusion h)
  | .null, .undef | .null, .bool _ | .null, .num _ | .null, .nan | .null, .str _ | .null, .date _ | .null, .invalidDate | .null, .arr _ | .null, .obj _ => isFalse (fun h => Value.noConfusion h)
  | .bool _, .undef | .bool _, .null | .bool _, .num _ | .bool _, .nan | .bool _, .str _ | .bool _, .date _ | .bool _, .invalidDate | .bool _, .arr _ | .bool _, .obj _ => isFalse (fun h => Value.noConfusion h)
  | .num _, .undef | .num _, .null | .num _, .bool _ | .num _, .nan | .num _, .str _ | .num _, .date _ | .num _, .invalidDate | .num _, .arr _ | .num _, .obj _ => isFalse (fun h => Value.noConfusion h)
  | .nan, .undef | .nan, .null | .nan, .bool _ | .nan, .num _ | .nan, .str _ | .nan, .date _ | .nan, .invalidDate | .nan, .arr _ | .nan, .obj _ => isFalse (fun h => Value.noConfusion h)
  | .str _, .undef | .str _, .null | .str _, .bool _ | .str _, .num _ | .str _, .nan | .str _, .date _ | .str _, .invalidDate | .str _, .arr _ | .str _, .obj _ => isFalse (fun h => Value.noConfusion h)
  | .date _, .undef | .date _, .null | .date _, .bool _ | .date _, .num _ | .date _, .nan | .date _, .str _ | .date _, .invalidDate | .date _, .arr _ | .date _, .obj _ => isFalse (fun h => Value.noConfusion h)
  | .invalidDate, .undef | .invalidDate, .null | .invalidDate, .bool _ | .invalidDate, .num _ | .invalidDate, .nan | .invalidDate, .str _ | .invalidDate, .date _ | .invalidDate, .arr _ | .invalidDate, .obj _ => isFalse (fun h => Value.noConfusion h)
  | .arr _, .undef | .arr _, .null | .arr _, .bool _ | .arr _, .num _ | .arr _, .nan | .arr _, .str _ | .arr _, .date _ | .arr _, .invalidDate | .arr _, .obj _ => isFalse (fun h => Value.noConfusion h)
  | .obj _, .undef | .obj _, .null | .obj _, .bool _ | .obj _, .num _ | .obj _, .nan | .obj _, .str _ | .obj _, .date _ | .obj _, .invalidDate | .obj _, .arr _ => isFalse (fun h => Value.noConfusion h)

def valueListDecEq : (a b : List Value) → Decidable (a = b)
  | [], [] => isTrue rfl
  | [], _ :: _ => isFalse (fun h => List.noConfusion h)
  | _ :: _, [] => isFalse (fun h => List.noConfusion h)
  | x :: xs, y :: ys =>
      match valueDecEq x y, valueListDecEq xs ys with
      | isTrue h1, isTrue h2 => isTrue (by rw [h1, h2])
      | isFalse h1, _ => isFalse (fun hh => h1 (List.head_eq_of_cons_eq hh))
      | _, isFalse h2 => isFalse (fun hh => h2 (List.tail_eq_of_cons_eq hh))

def valueKVDecEq : (a b : List (String × Value)) → Decidable (a = b)
  | [], [] => isTrue rfl
  | [], _ :: _ => isFalse (fun h => List.noConfusion h)
  | _ :: _, [] => isFalse (fun h => List.noConfusion h)
  | (k, x) :: xs, (l, y) :: ys =>
      match decEq k l, valueDecEq x y, valueKVDecEq xs ys with
      | isTrue h0, isTrue h1, isTrue h2 => isTrue (by rw [h0, h1, h2])
      | isFalse h0, _, _ => isFalse (fun hh => h0 (congrArg Prod.fst (List.head_eq_of_cons_eq hh)))
      | _, isFalse h1, _ => isFalse (fun hh => h1 (congrArg Prod.snd (List.head_eq_of_cons_eq hh)))
      | _, _, isFalse h2 => isFalse (fun hh => h2 (List.tail_eq_of_cons_eq hh))

end

instance : DecidableEq Value := valueDecEq

def exceptDecEq {e a : Type} [DecidableEq e] [DecidableEq a] :
    (x y : Except e a) → Decidable (x = y)
  | .ok u, .ok v =>
      match decEq u v with
      | isTrue h => isTrue (by rw [h])
      | isFalse h => isFalse (fun hh => h (Except.ok.inj hh))
  | .error u, .error v =>
      match decEq u v with
      | isTrue h => isTrue (by rw [h])
      | isFalse h => isFalse (fun hh => h (Except.error.inj hh))
  | .ok _, .error _ => isFalse (fun h => Except.noConfusion h)
  | .error _, .ok _ => isFalse (fun h => Except.noConfusion h)

instance {e a : Type} [DecidableEq e] [DecidableEq a] : DecidableEq (Except e a) :=
  exceptDecEq

/-- Modelled from the spec: the tag identifying a schema node variant
(mixed, string, number, boolean, date, array, object).  The tuple
variant is not needed by any claim and is omitted. -/
inductive STy where
  | mixed
  | string
  | number
  | boolean
  | date
  | array
  | object
deriving Repr, DecidableEq

/-- Modelled from the spec: a test descriptor of the Test Registry:
a named, possibly asynchronous, pass/fail assertion.  Asynchrony is
modelled as a flag on the descriptor (the engine only needs to know
whether a test can run on the synchronous path); message and params
only feed message rendering and are omitted. -/
structure Test where
  name : String
  exclusive : Bool
  isAsync : Bool
  run : Value → Bool

mutual

/-- Modelled from the spec: an immutable schema node.  It carries the
variant tag, the presence flags (nullable, optional), the strip flag,
the ordered custom transform pipeline, the test registry, the optional
default value, the object fields (each a child schema or a reference
path) and the array element schema.  Conditions (when), lazy nodes and
key-rename rules are not exercised by any claim and are omitted. -/
inductive Schema where
  | mk (ty : STy) (isNullable isOptional stripFlag : Bool)
      (transforms : List (Value → Value → Value))
      (tests : List Test)
      (defaultVal : Option Value)
      (fields : List (String × Field))
      (inner : Option Schema) : Schema

/-- Modelled from the spec: an object field is either a child schema
node or a reference (a dotted sibling / sibling-descendant path)
resolved at cast/validation time. -/
inductive Field where
  | sub (s : Schema) : Field
  | fieldRef (path : String) : Field

end

def Schema.ty : Schema → STy
  | .mk t _ _ _ _ _ _ _ _ => t

def Schema.isNullable : Schema → Bool
  | .mk _ n _ _ _ _ _ _ _ => n

def Schema.isOptional : Schema → Bool
  | .mk _ _ o _ _ _ _ _ _ => o

def Schema.stripFlag : Schema → Bool
  | .mk _ _ _ st _ _ _ _ _ => st

def Schema.transforms : Schema → List (Value → Value → Value)
  | .mk _ _ _ _ tr _ _ _ _ => tr

def Schema.tests : Schema → List Test
  | .mk _ _ _ _ _ ts _ _ _ => ts

def Schema.defaultVal : Schema → Option Value
  | .mk _ _ _ _ _ _ d _ _ => d

def Schema.fields : Schema → List (String × Field)
  | .mk _ _ _ _ _ _ _ fs _ => fs

def Schema.inner : Schema → Option Schema
  | .mk _ _ _ _ _ _ _ _ i => i

/-- Decimal digit lookup, written over characters so that concrete
evaluation stays inside the kernel-reducible fragment. -/
def digitVal? (c : Char) : Option Nat :=
  if 48 ≤ c.toNat ∧ c.toNat ≤ 57 then some (c.toNat - 48) else none

def digitsToNat (acc : Nat) : List Char → Option Nat
  | [] => some acc
  | c :: cs =>
    match digitVal? c with
    | some d => digitsToNat (acc * 10 + d) cs
    | none => none

/-- Integer-literal parsing over the character list of a string. -/
def parseIntChars : List Char → Option Int
  | [] => none
  | '-' :: cs =>
    (match cs with
     | [] => none
     | _ :: _ => (digitsToNat 0 cs).map (fun n => -(n : Int)))
  | cs => (digitsToNat 0 cs).map (fun n => (n : Int))

def strToInt? (s : String) : Option Int :=
  parseIntChars s.data

def splitDotGo (cur : List Char) : List Char → List String
  | [] => [String.mk cur.reverse]
  | c :: cs =>
    if c = '.' then String.mk cur.reverse :: splitDotGo [] cs
    else splitDotGo (c :: cur) cs

/-- Split a dotted path into its segments. -/
def splitDot (s : String) : List String :=
  splitDotGo [] s.data

/-- Modelled from the spec: the bare typeCheck predicate of each
variant, deciding whether a value already matches the target type
without casting; the NaN marker is not a valid number and the
invalid-date sentinel is not a valid date. -/
def typeCheckBase : STy → Value → Bool
  | .mixed, _ => true
  | .string, .str _ => true
  | .number, .num _ => true
  | .boolean, .bool _ => true
  | .date, .date _ => true
  | .array, .arr _ => true
  | .object, .obj _ => true
  | _, _ => false

/-- Modelled from the spec: the built-in string coercion: call toString
on the value if it exists; empty values are not coerced; failed casts
keep the input value (arrays and plain objects are not coerced). -/
def coerceString : Value → Value
  | .bool b => .str (if b then "true" else "false")
  | .num n => .str (toString n)
  | .nan => .str "NaN"
  | .date t => .str (toString t)
  | .invalidDate => .str "Invalid Date"
  | v => v

/-- Modelled from the spec: the built-in number coercion (parseFloat,
restricted here to integer literals): failed casts produce the
NaN-like invalid marker. -/
def coerceNumber : Value → Value
  | .str s =>
      match strToInt? s with
      | some k => .num k
      | none => .nan
  | _ => .nan

/-- Modelled from the spec: the built-in boolean coercion: the strings
true and false are coerced; anything else is left unchanged. -/
def coerceBool : Value → Value
  | .str "true" => .bool true
  | .str "false" => .bool false
  | v => v

/-- Modelled from the spec: the built-in date coercion (date parsing is
abstracted to integer timestamps): failed casts produce the
invalid-date sentinel. -/
def coerceDate : Value → Value
  | .num n => .date n
  | .str s =>
      match strToInt? s with
      | some k => .date k
      | none => .invalidDate
  | _ => .invalidDate

/-- Modelled from the spec: the default coercion transform of each
variant.  A value that already matches the type, and the absent values
undefined and null, are never coerced; mixed, object and array have no
default transform. -/
def coerce (ty : STy) (v : Value) : Value :=
  if typeCheckBase ty v then v
  else if v = .undef ∨ v = .null then v
  else
    match ty with
    | .string => coerceString v
    | .number => coerceNumber v
    | .boolean => coerceBool v
    | .date => coerceDate v
    | _ => v

/-- Modelled from the spec: run the custom transform pipeline in
declaration order, threading the current value and the original
value. -/
def applyTransforms (trs : List (Value → Value → Value)) (v orig : Value) : Value :=
  match trs with
  | [] => v
  | t :: rest => applyTransforms rest (t v orig) orig

/-- Modelled from the spec: the scalar stage of cast: default coercion,
then the custom transform pipeline, then substitution of the default
value when the result is undefined. -/
def castRaw (s : Schema) (v : Value) : Value :=
  let u := applyTransforms s.transforms (coerce s.ty v) v
  if u = .undef then
    match s.defaultVal with
    | some d => d
    | none => .undef
  else u

/-- Modelled from the spec: the full type-membership check: the bare
typeCheck, or null when the schema is nullable, or undefined when the
schema is optional. -/
def isTypeFull (s : Schema) (v : Value) : Bool :=
  typeCheckBase s.ty v || (decide (v = .null) && s.isNullable)
    || (decide (v = .undef) && s.isOptional)

/-- Modelled from the spec: errors cast can signal: a failed asserting
cast, a cyclic reference configuration error, and exhaustion of the
recursion fuel of the model. -/
inductive CastErr where
  | castType
  | cyclicRef
  | outOfFuel
deriving Repr, DecidableEq

def refFirstSeg (p : String) : String :=
  match splitDot p with
  | [] => p
  | k :: _ => k

/-- Modelled from the spec: a field is ready to be processed when the
sibling field its reference points into (if any) has already been
processed; schema fields carry no ordering constraint. -/
def fieldDepOk (names done : List String) : Field → Bool
  | .sub _ => true
  | .fieldRef p =>
      let h := refFirstSeg p
      !names.contains h || done.contains h

def removeKey (k : String) : List (String × Field) → List (String × Field)
  | [] => []
  | (l, f) :: rest => if l = k then rest else (l, f) :: removeKey k rest

/-- Modelled from the spec: dependency ordering of object fields: at
each step the first declared field whose dependencies are satisfied is
emitted (declaration order is the fallback); if no field can make
progress the references are cyclic, a configuration error. -/
def orderFieldsGo (names : List String) :
    Nat → List String → List (String × Field) → List (String × Field) →
    Option (List (String × Field))
  | _, _, [], acc => some acc.reverse
  | 0, _, _ :: _, _ => none
  | fuel + 1, done, pending, acc =>
    match pending.find? (fun kf => fieldDepOk names done kf.2) with
    | none => none
    | some kf => orderFieldsGo names fuel (kf.1 :: done) (removeKey kf.1 pending) (kf :: acc)

def orderFields (fs : List (String × Field)) : Option (List (String × Field)) :=
  orderFieldsGo (fs.map (·.1)) fs.length [] fs []

def lookupKV (k : String) : List (String × Value) → Option Value
  | [] => none
  | (l, v) :: rest => if l = k then some v else lookupKV k rest

/-- Modelled from the spec: structural resolution of a dotted path
against a value (bracket indices and context-rooted paths are not
exercised by any claim); a miss resolves to undefined. -/
def resolveSegs : List String → Value → Value
  | [], v => v
  | k :: ks, .obj kvs => resolveSegs ks ((lookupKV k kvs).getD .undef)
  | _ :: _, _ => .undef

def resolvePath (p : String) (v : Value) : Value :=
  resolveSegs (splitDot p) v

mutual

/-- Modelled from the spec: cast.  The scalar stage produces the
transformed value; an object result recurses per field in dependency
order (stripped fields are dropped, reference fields resolve against
the partially built output, unknown input keys are appended); an array
result maps the element schema; otherwise the result is accepted when
it is a member of the full type, and a failed cast raises a cast type
error in asserting mode or returns the transformed value as-is. -/
def castFuel : Nat → Schema → Value → Bool → Except CastErr Value
  | 0, _, _, _ => .error .outOfFuel
  | fuel + 1, s, v, assert =>
    let w := castRaw s v
    match s.ty, w with
    | .object, .obj kvs =>
      match orderFields s.fields with
      | none => .error .cyclicRef
      | some ord =>
        Except.map
          (fun outFs =>
            .obj (outFs ++ kvs.filter (fun kv => !(s.fields.map (fun kf => kf.1)).contains kv.1)))
          (castFieldsFuel fuel ord kvs [] assert)
    | .array, .arr xs =>
      match s.inner with
      | none => .ok (.arr xs)
      | some cs => Except.map (fun ys => .arr ys) (castElemsFuel fuel cs xs assert)
    | _, _ =>
      if isTypeFull s w then .ok w
      else if assert then .error .castType
      else .ok w
termination_by structural fuel _ _ _ => fuel

def castFieldsFuel : Nat → List (String × Field) → List (String × Value) →
    List (String × Value) → Bool → Except CastErr (List (String × Value))
  | 0, _, _, _, _ => .error .outOfFuel
  | _ + 1, [], _, acc, _ => .ok acc
  | fuel + 1, (k, f) :: rest, input, acc, assert =>
    match f with
    | .fieldRef p => castFieldsFuel fuel rest input (acc ++ [(k, resolvePath p (.obj acc))]) assert
    | .sub cs =>
      if cs.stripFlag then castFieldsFuel fuel rest input acc assert
      else
        Except.bind (castFuel fuel cs ((lookupKV k input).getD .undef) assert)
          (fun u => castFieldsFuel fuel rest input (acc ++ [(k, u)]) assert)
termination_by structural fuel _ _ _ _ => fuel

def castElemsFuel : Nat → Schema → List Value → Bool → Except CastErr (List Value)
  | 0, _, _, _ => .error .outOfFuel
  | _ + 1, _, [], _ => .ok []
  | fuel + 1, cs, x :: xs, assert =>
    Except.bind (castFuel fuel cs x assert)
      (fun y => Except.map (fun ys => y :: ys) (castElemsFuel fuel cs xs assert))
termination_by structural fuel _ _ _ => fuel

end

/-- The recursion fuel used by the top-level entry points; large enough
for every concrete schema in this development. -/
def FUEL : Nat := 100

/-- Modelled from the spec: the cast entry point (assert defaults to
true in the documented options; both modes are exposed here). -/
def castV (s : Schema) (v : Value) (assert : Bool) : Except CastErr Value :=
  castFuel FUEL s v assert

/-- Modelled from the spec: a leaf validation failure, carrying its own
full path and the name of the failing check. -/
structure ErrEntry where
  path : String
  check : String
deriving Repr, DecidableEq

/-- Modelled from the spec: the non-validation failures of the
validation driver: the distinct misuse error raised by the synchronous
entry point when it encounters an asynchronous test, and exhaustion of
the recursion fuel of the model. -/
inductive SyncErr where
  | asyncMisuse
  | outOfFuel
deriving Repr, DecidableEq

/-- Modelled from the spec: run the registry tests in order.  On the
synchronous path an asynchronous test raises the distinct misuse error
the moment it is encountered; with abortEarly the first failing test
stops the run with that single error; otherwise every failure is
collected in order. -/
def runTests (sync abortEarly : Bool) (path : String) (ts : List Test) (w : Value) :
    Except SyncErr (List ErrEntry) :=
  match ts with
  | [] => .ok []
  | t :: rest =>
    if sync && t.isAsync then .error .asyncMisuse
    else if t.run w then runTests sync abortEarly path rest w
    else if abortEarly then .ok [⟨path, t.name⟩]
    else Except.map (fun more => ⟨path, t.name⟩ :: more) (runTests sync abortEarly path rest w)

/-- Modelled from the spec: a child path is the parent path joined with
a dot and the key for object fields; the root path is empty. -/
def joinKey (path k : String) : String :=
  if path = "" then k else path ++ "." ++ k

/-- Modelled from the spec: a child path is the parent path joined with
the bracketed index for array elements. -/
def joinIdx (path : String) (i : Nat) : String :=
  path ++ "[" ++ toString i ++ "]"

mutual

/-- Modelled from the spec: validation of one node on an already-cast
value.  The required and nullable presence checks run first and
short-circuit with a single error, then the type check (absent values
are exempt), then the registry tests, then (when recursive) the
descent into object fields and array elements with composed paths;
with abortEarly the first failure at any level is the sole result,
otherwise every leaf failure is collected. -/
def validateFuel : Nat → Bool → Bool → Bool → String → Schema → Value →
    Except SyncErr (List ErrEntry)
  | 0, _, _, _, _, _, _ => .error .outOfFuel
  | fuel + 1, sync, ae, recursive, path, s, w =>
    if w = .undef ∧ s.isOptional = false then .ok [⟨path, "required"⟩]
    else if w = .null ∧ s.isNullable = false then .ok [⟨path, "notNull"⟩]
    else if w ≠ .undef ∧ w ≠ .null ∧ typeCheckBase s.ty w = false then
      .ok [⟨path, "typeError"⟩]
    else
      Except.bind (runTests sync ae path s.tests w) (fun own =>
        if ae = true ∧ own ≠ [] then .ok own
        else if recursive = false then .ok own
        else
          match s.ty, w with
          | .object, .obj kvs =>
            Except.map (fun kids => own ++ kids)
              (validateFieldsFuel fuel sync ae path s.fields kvs)
          | .array, .arr xs =>
            (match s.inner with
             | none => .ok own
             | some cs =>
               Except.map (fun kids => own ++ kids)
                 (validateElemsFuel fuel sync ae path cs xs 0))
          | _, _ => .ok own)
termination_by structural fuel _ _ _ _ _ _ => fuel

def validateFieldsFuel : Nat → Bool → Bool → String → List (String × Field) →
    List (String × Value) → Except SyncErr (List ErrEntry)
  | 0, _, _, _, _, _ => .error .outOfFuel
  | _ + 1, _, _, _, [], _ => .ok []
  | fuel + 1, sync, ae, path, (k, f) :: rest, kvs =>
    match f with
    | .fieldRef _ => validateFieldsFuel fuel sync ae path rest kvs
    | .sub cs =>
      if cs.stripFlag then validateFieldsFuel fuel sync ae path rest kvs
      else
        Except.bind (validateFuel fuel sync ae true (joinKey path k) cs ((lookupKV k kvs).getD .undef))
          (fun errs =>
            if ae = true ∧ errs ≠ [] then .ok errs
            else
              Except.map (fun more => errs ++ more)
                (validateFieldsFuel fuel sync ae path rest kvs))
termination_by structural fuel _ _ _ _ _ => fuel

def validateElemsFuel : Nat → Bool → Bool → String → Schema → List Value → Nat →
    Except SyncErr (List ErrEntry)
  | 0, _, _, _, _, _, _ => .error .outOfFuel
  | _ + 1, _, _, _, _, [], _ => .ok []
  | fuel + 1, sync, ae, path, cs, x :: xs, i =>
    Except.bind (validateFuel fuel sync ae true (joinIdx path i) cs x)
      (fun errs =>
        if ae = true ∧ errs ≠ [] then .ok errs
        else
          Except.map (fun more => errs ++ more)
            (validateElemsFuel fuel sync ae path cs xs (i + 1)))
termination_by structural fuel _ _ _ _ _ _ => fuel

end

/-- Modelled from the spec: the outcomes of the validation entry
points: the aggregate validation error carrying the leaf failures, the
distinct synchronous-misuse error, a configuration error (cyclic
references), and fuel exhaustion of the model. -/
inductive VErr where
  | validation (inner : List ErrEntry)
  | asyncMisuse
  | configErr
  | fuelOut
deriving Repr, DecidableEq

/-- Modelled from the spec: the validation driver: a non-asserting cast
of the input, then validation of the cast result from the root with an
empty path; an empty collection of failures resolves with the cast
value, a non-empty one rejects with the single aggregate error. -/
def validateRun (sync ae recursive : Bool) (s : Schema) (v : Value) : Except VErr Value :=
  match castFuel FUEL s v false with
  | .error .castType => .error .configErr
  | .error .cyclicRef => .error .configErr
  | .error .outOfFuel => .error .fuelOut
  | .ok w =>
    match validateFuel FUEL sync ae recursive "" s w with
    | .error .asyncMisuse => .error .asyncMisuse
    | .error .outOfFuel => .error .fuelOut
    | .ok [] => .ok w
    | .ok errs => .error (.validation errs)

/-- Modelled from the spec: validate with abortEarly set to false:
collect every failing test from every node of the tree. -/
def validateColl (s : Schema) (v : Value) : Except VErr Value :=
  validateRun false false true s v

/-- Modelled from the spec: validate with the default options
(asynchronous path, abortEarly, recursive). -/
def validateD (s : Schema) (v : Value) : Except VErr Value :=
  validateRun false true true s v

/-- Modelled from the spec: validateSync with the default options. -/
def validateSyncD (s : Schema) (v : Value) : Except VErr Value :=
  validateRun true true true s v

/-- Modelled from the spec: isValidSync returns whether the value
matches the schema, swallowing validation errors. -/
def isValidSyncD (s : Schema) (v : Value) : Bool :=
  match validateSyncD s v with
  | .ok _ => true
  | .error _ => false

/-- The leaf failures of a validation outcome (empty for success and
for non-validation errors). -/
def validationErrors : Except VErr Value → List ErrEntry
  | .error (.validation es) => es
  | _ => []

/-- Modelled from the spec: adding a test to the registry.  An
exclusive test replaces every existing test of the same name; a
non-exclusive test removes an exclusive test of the same name and is
appended, so that non-exclusive same-named tests stack in the order
added. -/
def addTest (ts : List Test) (t : Test) : List Test :=
  if t.exclusive then ts.filter (fun u => !(u.name == t.name)) ++ [t]
  else ts.filter (fun u => !(u.name == t.name && u.exclusive)) ++ [t]

/-- Modelled from the spec: a fresh schema node of the given variant:
non-nullable, optional, no transforms, no tests, no default. -/
def mkBase (ty : STy) : Schema :=
  .mk ty false true false [] [] none [] none

/-- Modelled from the spec: the mixed() constructor. -/
def mixedS : Schema := mkBase .mixed

/-- Modelled from the spec: the string() constructor. -/
def stringS : Schema := mkBase .string

/-- Modelled from the spec: the number() constructor. -/
def numberS : Schema := mkBase .number

/-- Modelled from the spec: the boolean() constructor. -/
def boolS : Schema := mkBase .boolean

/-- Modelled from the spec: the date() constructor. -/
def dateS : Schema := mkBase .date

/-- Modelled from the spec: the object({...}) constructor. -/
def objectS (fs : List (String × Field)) : Schema :=
  .mk .object false true false [] [] none fs none

/-- Modelled from the spec: array().of(type). -/
def arrayOf (cs : Schema) : Schema :=
  .mk .array false true false [] [] none [] (some cs)

/-- Modelled from the spec: nullable() marks null as a valid value;
returns a new node. -/
def Schema.nullable : Schema → Schema
  | .mk ty _ o st tr ts d fs i => .mk ty true o st tr ts d fs i

/-- Modelled from the spec: optional() allows undefined values;
returns a new node. -/
def Schema.optional : Schema → Schema
  | .mk ty n _ st tr ts d fs i => .mk ty n true st tr ts d fs i

/-- Modelled from the spec: defined() requires a non-undefined value;
returns a new node. -/
def Schema.defined : Schema → Schema
  | .mk ty n _ st tr ts d fs i => .mk ty n false st tr ts d fs i

/-- Modelled from the spec: strip() marks a nested schema for removal
from the cast output object; returns a new node. -/
def Schema.strip : Schema → Schema
  | .mk ty n o _ tr ts d fs i => .mk ty n o true tr ts d fs i

/-- Modelled from the spec: transform(fn) appends a custom transform to
the pipeline; returns a new node. -/
def Schema.transform (s : Schema) (f : Value → Value → Value) : Schema :=
  match s with
  | .mk ty n o st tr ts d fs i => .mk ty n o st (tr ++ [f]) ts d fs i

/-- Modelled from the spec: test(options) adds a test descriptor to the
registry with the exclusivity rules of addTest; returns a new node. -/
def Schema.test (s : Schema) (t : Test) : Schema :=
  match s with
  | .mk ty n o st tr ts d fs i => .mk ty n o st tr (addTest ts t) d fs i

/-- Modelled from the spec: default(value) sets the value substituted
when the transformed result is undefined; returns a new node. -/
def Schema.withDefault (s : Schema) (d : Value) : Schema :=
  match s with
  | .mk ty n o st tr ts _ fs i => .mk ty n o st tr ts (some d) fs i

/-- Modelled from the spec: the exclusive presence test added by
required(); for string schemas the empty string is also considered a
missing value, for every other variant the registry part is trivial
(absence itself is enforced by the presence flags). -/
def requiredTest (ty : STy) : Test :=
  ⟨"required", true, false, fun v =>
    match ty, v with
    | .string, .str "" => false
    | _, _ => true⟩

/-- Modelled from the spec: required() disallows undefined and null
(negating optional and nullable) and installs the per-variant required
test; returns a new node. -/
def Schema.required (s : Schema) : Schema :=
  match s with
  | .mk ty _ _ st tr ts d fs i =>
      .mk ty false false st tr (addTest ts (requiredTest ty)) d fs i

/-- Modelled from the spec: the exclusive oneOf test: only values from
the set are allowed, but undefined never fails the check. -/
def oneOfTest (vals : List Value) : Test :=
  ⟨"oneOf", true, false, fun v => decide (v = .undef ∨ v ∈ vals)⟩

/-- Modelled from the spec: oneOf(arrayOfValues); returns a new node. -/
def Schema.oneOf (s : Schema) (vals : List Value) : Schema :=
  s.test (oneOfTest vals)

mutual

/-- Modelled from the spec: whether any test configured anywhere in the
schema tree is asynchronous. -/
def schemaHasAsync : Schema → Bool
  | .mk _ _ _ _ _ ts _ fs inner =>
      ts.any (fun t => t.isAsync) || fieldsHasAsync fs || innerHasAsync inner

termination_by structural s => s

def fieldsHasAsync : List (String × Field) → Bool
  | [] => false
  | (_, f) :: rest => fieldHasAsync f || fieldsHasAsync rest

termination_by structural fs => fs

def fieldHasAsync : Field → Bool
  | .sub s => schemaHasAsync s
  | .fieldRef _ => false

termination_by structural f => f

def innerHasAsync : Option Schema → Bool
  | none => false
  | some s => schemaHasAsync s
termination_by structural i => i

end

mutual

/-- Whether the schema tree carries no custom transforms anywhere, so
that casting runs only the built-in coercion of each variant. -/
def schemaNoCustom : Schema → Bool
  | .mk _ _ _ _ tr _ _ fs inner =>
      tr.isEmpty && fieldsNoCustom fs && innerNoCustom inner

termination_by structural s => s

def fieldsNoCustom : List (String × Field) → Bool
  | [] => true
  | (_, f) :: rest => fieldNoCustom f && fieldsNoCustom rest

termination_by structural fs => fs

def fieldNoCustom : Field → Bool
  | .sub s => schemaNoCustom s
  | .fieldRef _ => true

termination_by structural f => f

def innerNoCustom : Option Schema → Bool
  | none => true
  | some s => schemaNoCustom s
termination_by structural i => i

end

mutual

/-- Well-formedness of declared object shapes: the declared field names
of every object node in the tree are distinct, as they are for object
literals in the source language. -/
def schemaWF : Schema → Bool
  | .mk _ _ _ _ _ _ _ fs inner =>
      decide (fs.map (fun kf => kf.1)).Nodup && fieldsWF fs && innerWF inner

termination_by structural s => s

def fieldsWF : List (String × Field) → Bool
  | [] => true
  | (_, f) :: rest => fieldWF f && fieldsWF rest

termination_by structural fs => fs

def fieldWF : Field → Bool
  | .sub s => schemaWF s
  | .fieldRef _ => true

termination_by structural f => f

def innerWF : Option Schema → Bool
  | none => true
  | some s => schemaWF s
termination_by structural i => i

end

/-- The reversing custom transform used as an example in the schema
documentation (a transform whose repetition does not stabilise). -/
def reverseTr : Value → Value → Value :=
  fun v _ =>
    match v with
    | .str s => .str (String.mk s.data.reverse)
    | u => u

/-- string() with the documented reversing transform appended. -/
def reversedString : Schema := stringS.transform reverseTr

/-- A custom transform rewriting every value to undefined. -/
def alwaysUndefinedTr : Value → Value → Value :=
  fun _ _ => Value.undef

/-- string() with a custom transform producing undefined. -/
def toUndefString : Schema := stringS.transform alwaysUndefinedTr

/-- An asynchronous test that always passes. -/
def asyncAlways : Test := ⟨"asyncCheck", false, true, fun _ => true⟩

/-- string().required() with an asynchronous test configured after it. -/
def asyncAfterRequired : Schema := (stringS.required).test asyncAlways

/-- string() with an asynchronous test as its only registry test. -/
def asyncReachable : Schema := stringS.test asyncAlways

/-- object({a: object({b: number().required()})}). -/
def nestedReq : Schema :=
  objectS [("a", .sub (objectS [("b", .sub (numberS.required))]))]

/-- object({baz: ref(foo.bar), foo: object({bar: string()})}), the
reference field declared first. -/
def refSchemaA : Schema :=
  objectS [("baz", .fieldRef "foo.bar"), ("foo", .sub (objectS [("bar", .sub stringS)]))]

/-- The same shape with the declaration order of the two fields
swapped. -/
def refSchemaB : Schema :=
  objectS [("foo", .sub (objectS [("bar", .sub stringS)])), ("baz", .fieldRef "foo.bar")]

/-- The input of the documented reference-ordering example. -/
def refInput : Value := .obj [("foo", .obj [("bar", .str "boom")])]

/-- The output of the documented reference-ordering example. -/
def refOutput : Value := .obj [("foo", .obj [("bar", .str "boom")]), ("baz", .str "boom")]

/-- object({useThis: number(), notThis: string().strip()}). -/
def stripSchema : Schema :=
  objectS [("useThis", .sub numberS), ("notThis", .sub (stringS.strip))]

/-- An exclusive test named max. -/
def maxTestA : Test := ⟨"max", true, false, fun _ => true⟩

/-- Another exclusive test named max. -/
def maxTestB : Test := ⟨"max", true, false, fun _ => false⟩

/-- C4: when validate runs with abortEarly=false, the aggregate error
collects one entry per leaf test failure with full composed paths; for
object({a: object({b: number().required()})}) validating an object
whose field a is the empty object, the aggregate holds exactly one
failure, the required failure of the missing nested field, and its
path is the dot-composed "a.b". -/
theorem c4_aggregate_paths :
    validateColl nestedReq (.obj [("a", .obj [])]) =
      .error (.validation [⟨"a.b", "required"⟩]) := by decide

/-- C5: configuration calls return a new node and leave the original
node unchanged: for a = string() and b = a.required(), a still accepts
undefined while b rejects it, and b is a distinct node (its optional
flag differs) while a keeps its original flags. -/
theorem c5_immutability :
    isValidSyncD stringS .undef = true ∧
    isValidSyncD (stringS.required) .undef = false ∧
    (stringS.required).isOptional = false ∧
    stringS.isOptional = true := by decide

/-- C7: a field whose schema is a reference to a sibling-descendant
field is processed after the referenced field, so the documented
example casts to the expected object under both declaration orders. -/
theorem c7_ref_order :
    castV refSchemaA refInput true = .ok refOutput ∧
    castV refSchemaB refInput true = .ok refOutput := by decide

/-- C10: casting an object with a nested strip() field removes that
key from the output while every other declared field is cast and
kept: the documented example yields an object with only useThis. -/
theorem c10_strip :
    castV stripSchema (.obj [("notThis", .str "foo"), ("useThis", .num 4)]) true =
      .ok (.obj [("useThis", .num 4)]) := by decide

/-- C1 counterexample: a string schema whose transform pipeline
produces undefined from the string input hi.  The transformed result
fails the bare typeCheck and is not a nullable null, yet the
non-asserting cast returns undefined (not the original input) and the
asserting cast succeeds instead of raising a cast type error, because
undefined is exempted through the optional flag, an exemption the
claim does not grant. -/
theorem c1_cex :
    typeCheckBase toUndefString.ty (castRaw toUndefString (.str "hi")) = false ∧
    castRaw toUndefString (.str "hi") ≠ .null ∧
    castV toUndefString (.str "hi") false = .ok .undef ∧
    castV toUndefString (.str "hi") false ≠ .ok (.str "hi") ∧
    castV toUndefString (.str "hi") true = .ok .undef ∧
    castV toUndefString (.str "hi") true ≠ .error .castType := by decide

/-- C3 counterexample: a schema tree that does configure an
asynchronous test, yet validateSync on undefined raises the ordinary
required validation error, not the distinct misuse error, because the
failing presence check short-circuits before the asynchronous test is
ever encountered. -/
theorem c3_cex :
    schemaHasAsync asyncAfterRequired = true ∧
    validateSyncD asyncAfterRequired .undef = .error (.validation [⟨"", "required"⟩]) ∧
    validateSyncD asyncAfterRequired .undef ≠ .error .asyncMisuse := by decide

/-- C6 counterexample: with the documented reversing custom transform,
the cast of the string ab is the conforming string ba, yet casting the
cast result yields ab again, so cast is not idempotent for every
schema once the value conforms to the type. -/
theorem c6_cex :
    castV reversedString (.str "ab") true = .ok (.str "ba") ∧
    typeCheckBase reversedString.ty (.str "ba") = true ∧
    castV reversedString (.str "ba") true = .ok (.str "ab") ∧
    castV reversedString (.str "ba") true ≠ .ok (.str "ba") := by decide

lemma filter_of_filter_not (ts : List Test) (nm : String) :
    (ts.filter (fun u => !(u.name == nm))).filter (fun u => u.name == nm) = [] := by
  induction ts with
  | nil => rfl
  | cons a rest ih =>
    by_cases h : a.name = nm <;> simp [List.filter_cons, h, ih]

lemma filter_of_filter_notboth (ts : List Test) (nm : String) :
    (ts.filter (fun u => !(u.name == nm && u.exclusive))).filter (fun u => u.name == nm) =
      ts.filter (fun u => u.name == nm && !u.exclusive) := by
  rw [List.filter_filter]
  refine List.filter_congr ?_
  intro a _
  cases h : a.name == nm <;> simp [h]

/-- C2: in the Test Registry, adding a same-named test follows the
exclusivity rules: an exclusive new test replaces every existing test
of that name; a non-exclusive new test removes an exclusive same-named
test and is appended, so non-exclusive same-named tests stack in the
order added; in particular adding two exclusive tests of one name in
sequence leaves exactly the later one active. -/
theorem c2_registry_exclusivity (ts : List Test) (t t1 t2 : Test) :
    (t.exclusive = true →
      (addTest ts t).filter (fun u => u.name == t.name) = [t]) ∧
    (t.exclusive = false →
      (addTest ts t).filter (fun u => u.name == t.name) =
        ts.filter (fun u => u.name == t.name && !u.exclusive) ++ [t]) ∧
    (t1.exclusive = true → t2.exclusive = true → t1.name = t2.name →
      (addTest (addTest ts t1) t2).filter (fun u => u.name == t2.name) = [t2]) := by
  refine ⟨?_, ?_, ?_⟩
  · intro hx
    simp [addTest, hx, List.filter_append, filter_of_filter_not]
  · intro hx
    simp only [addTest, hx, Bool.false_eq_true, if_false, List.filter_append,
      filter_of_filter_notboth]
    simp
  · intro h1 h2 hn
    simp [addTest, h1, h2, List.filter_append, filter_of_filter_not]
    exact fun a _ h hc => absurd h hc

/-- C2 witness: the exclusivity rules applied to two concrete exclusive
tests named max: after the first add exactly that test named max is
active, and after adding the second the later one alone remains. -/
theorem c2_registry_exclusivity_w :
    ((addTest [] maxTestA).filter (fun u => u.name == maxTestA.name) = [maxTestA]) ∧
    ((addTest (addTest [] maxTestA) maxTestB).filter (fun u => u.name == maxTestB.name) = [maxTestB]) :=
  ⟨(c2_registry_exclusivity [] maxTestA maxTestA maxTestB).1 rfl,
   (c2_registry_exclusivity [] maxTestB maxTestA maxTestB).2.2 rfl rfl rfl⟩


lemma except_bind_ok {e a b : Type} (x : a) (f : a → Except e b) :
    Except.bind (.ok x) f = f x := rfl

lemma except_bind_error {e a b : Type} (err : e) (f : a → Except e b) :
    Except.bind (.error err) f = .error err := rfl

lemma except_map_ok {e a b : Type} (f : a → b) (x : a) :
    Except.map f (.ok x : Except e a) = .ok (f x) := rfl

lemma except_map_error {e a b : Type} (f : a → b) (err : e) :
    Except.map f (.error err : Except e a) = .error err := rfl

lemma bind_no_misuse (a : Except SyncErr (List ErrEntry))
    (f : List ErrEntry → Except SyncErr (List ErrEntry))
    (ha : a ≠ .error .asyncMisuse) (hf : ∀ x, f x ≠ .error .asyncMisuse) :
    Except.bind a f ≠ .error .asyncMisuse := by
  cases a with
  | error e =>
    cases e with
    | asyncMisuse => exact absurd rfl ha
    | outOfFuel => simp [except_bind_error]
  | ok x => simpa [except_bind_ok] using hf x

lemma map_no_misuse (a : Except SyncErr (List ErrEntry))
    (f : List ErrEntry → List ErrEntry) (ha : a ≠ .error .asyncMisuse) :
    Except.map f a ≠ .error .asyncMisuse := by
  cases a with
  | error e =>
    cases e with
    | asyncMisuse => exact absurd rfl ha
    | outOfFuel => simp [except_map_error]
  | ok x => simp [except_map_ok]

lemma runTests_no_misuse (sync ae : Bool) (path : String) (w : Value) :
    ∀ ts : List Test, ts.any (fun t => t.isAsync) = false →
      runTests sync ae path ts w ≠ .error .asyncMisuse := by
  intro ts
  induction ts with
  | nil => intro _ h; cases h
  | cons t rest ih =>
    intro h
    simp only [List.any_cons, Bool.or_eq_false_iff] at h
    simp only [runTests, h.1, Bool.and_false, Bool.false_eq_true, if_false]
    split
    · exact ih h.2
    · split
      · simp
      · exact map_no_misuse _ _ (ih h.2)

lemma schemaHasAsync_decomp (s : Schema) (h : schemaHasAsync s = false) :
    s.tests.any (fun t => t.isAsync) = false ∧ fieldsHasAsync s.fields = false ∧
      innerHasAsync s.inner = false := by
  cases s with
  | mk ty n o st tr ts d fs i =>
    simp only [schemaHasAsync, Bool.or_eq_false_iff] at h
    exact ⟨h.1.1, h.1.2, h.2⟩

lemma validate_no_misuse :
    ∀ n : Nat,
      (∀ sync ae rec path s w, schemaHasAsync s = false →
        validateFuel n sync ae rec path s w ≠ .error .asyncMisuse) ∧
      (∀ sync ae path fs kvs, fieldsHasAsync fs = false →
        validateFieldsFuel n sync ae path fs kvs ≠ .error .asyncMisuse) ∧
      (∀ sync ae path cs xs i, schemaHasAsync cs = false →
        validateElemsFuel n sync ae path cs xs i ≠ .error .asyncMisuse) := by
  intro n
  induction n with
  | zero =>
    refine ⟨?_, ?_, ?_⟩ <;> intros <;>
      simp [validateFuel, validateFieldsFuel, validateElemsFuel]
  | succ n ih =>
    obtain ⟨ih1, ih2, ih3⟩ := ih
    refine ⟨?_, ?_, ?_⟩
    · intro sync ae rec path s w h
      obtain ⟨hts, hfs, hin⟩ := schemaHasAsync_decomp s h
      simp only [validateFuel]
      split
      · simp
      split
      · simp
      split
      · simp
      refine bind_no_misuse _ _ (runTests_no_misuse sync ae path w s.tests hts) ?_
      intro own
      split
      · simp
      split
      · simp
      split
      · exact map_no_misuse _ _ (ih2 sync ae path s.fields _ hfs)
      · cases hinner : s.inner with
        | none => simp
        | some cs =>
          rw [hinner] at hin
          simp only [innerHasAsync] at hin
          exact map_no_misuse _ _ (ih3 sync ae path cs _ 0 hin)
      · simp
    · intro sync ae path fs kvs h
      cases fs with
      | nil => intro hc; cases hc
      | cons a rest =>
        obtain ⟨k, f⟩ := a
        simp only [fieldsHasAsync, Bool.or_eq_false_iff] at h
        cases f with
        | fieldRef p => exact ih2 sync ae path rest kvs h.2
        | sub cs =>
          simp only [validateFieldsFuel]
          split
          · exact ih2 sync ae path rest kvs h.2
          · refine bind_no_misuse _ _ (ih1 sync ae true (joinKey path k) cs _ h.1) ?_
            intro errs
            split
            · simp
            · exact map_no_misuse _ _ (ih2 sync ae path rest kvs h.2)
    · intro sync ae path cs xs i h
      cases xs with
      | nil => intro hc; cases hc
      | cons x rest =>
        simp only [validateElemsFuel]
        refine bind_no_misuse _ _ (ih1 sync ae true (joinIdx path i) cs x h) ?_
        intro errs
        split
        · simp
        · exact map_no_misuse _ _ (ih3 sync ae path cs rest (i + 1) h)

/-- C3 (amended): validateSync raises the distinct misuse error exactly
when its traversal actually encounters an asynchronous test: whenever
no test configured anywhere in the tree is asynchronous, validateSync
never raises the misuse error (it succeeds or raises a validation
error), and a schema whose asynchronous test is reached does raise the
distinct misuse error, which is not a validation error. -/
theorem c3_sync_no_async_distinct (s : Schema) (v : Value)
    (h : schemaHasAsync s = false) :
    validateSyncD s v ≠ .error .asyncMisuse ∧
    validateSyncD asyncReachable (.str "x") = .error .asyncMisuse := by
  constructor
  · unfold validateSyncD validateRun
    cases hc : castFuel FUEL s v false with
    | error e => cases e <;> simp
    | ok w =>
      cases hv : validateFuel FUEL true true true "" s w with
      | error e =>
        cases e with
        | asyncMisuse => exact absurd hv ((validate_no_misuse FUEL).1 true true true "" s w h)
        | outOfFuel => simp [hv]
      | ok errs => cases errs <;> simp [hv]
  · decide

/-- C3 witness: a concrete schema without asynchronous tests for which
validateSync cannot raise the misuse error, next to the concrete
schema with a reached asynchronous test that does raise it. -/
theorem c3_sync_no_async_distinct_w :
    validateSyncD (stringS.required) .undef ≠ .error .asyncMisuse ∧
    validateSyncD asyncReachable (.str "x") = .error .asyncMisuse :=
  c3_sync_no_async_distinct (stringS.required) .undef (by decide)


lemma required_ty (s : Schema) : (Schema.required s).ty = s.ty := by cases s; rfl

lemma required_transforms (s : Schema) :
    (Schema.required s).transforms = s.transforms := by cases s; rfl

lemma required_tests (s : Schema) :
    (Schema.required s).tests = addTest s.tests (requiredTest s.ty) := by cases s; rfl

lemma required_isOptional (s : Schema) : (Schema.required s).isOptional = false := by cases s; rfl

lemma required_isNullable (s : Schema) : (Schema.required s).isNullable = false := by cases s; rfl

lemma required_defaultVal (s : Schema) :
    (Schema.required s).defaultVal = s.defaultVal := by cases s; rfl

lemma test_ty (s : Schema) (t : Test) : (Schema.test s t).ty = s.ty := by cases s; rfl

lemma test_transforms (s : Schema) (t : Test) :
    (Schema.test s t).transforms = s.transforms := by cases s; rfl

lemma test_tests (s : Schema) (t : Test) :
    (Schema.test s t).tests = addTest s.tests t := by cases s; rfl

lemma test_isOptional (s : Schema) (t : Test) :
    (Schema.test s t).isOptional = s.isOptional := by cases s; rfl

lemma test_isNullable (s : Schema) (t : Test) :
    (Schema.test s t).isNullable = s.isNullable := by cases s; rfl

lemma test_defaultVal (s : Schema) (t : Test) :
    (Schema.test s t).defaultVal = s.defaultVal := by cases s; rfl

lemma coerce_undef (ty : STy) : coerce ty .undef = .undef := by
  cases ty <;> simp [coerce, typeCheckBase]

lemma castRaw_str_of_string (s : Schema) (h1 : s.ty = .string) (h2 : s.transforms = [])
    (t : String) : castRaw s (.str t) = .str t := by
  simp [castRaw, applyTransforms, h2, h1, coerce, typeCheckBase]

lemma castRaw_undef_none (s : Schema) (h2 : s.transforms = []) (hd : s.defaultVal = none) :
    castRaw s .undef = .undef := by
  simp [castRaw, applyTransforms, h2, coerce_undef, hd]

lemma castFuel_str_of_string (n : Nat) (s : Schema) (h1 : s.ty = .string)
    (h2 : s.transforms = []) (t : String) :
    castFuel (n + 1) s (.str t) false = .ok (.str t) := by
  simp [castFuel, castRaw_str_of_string s h1 h2, h1, isTypeFull, typeCheckBase]

lemma castFuel_undef (n : Nat) (s : Schema) (h2 : s.transforms = [])
    (hd : s.defaultVal = none) :
    castFuel (n + 1) s .undef false = .ok .undef := by
  cases hs : s.ty <;>
    simp [castFuel, castRaw_undef_none s h2 hd, hs, isTypeFull, typeCheckBase]

lemma runTests_async_false_ok (ae : Bool) (path : String) (w : Value) :
    ∀ ts : List Test, ∃ errs, runTests false ae path ts w = .ok errs := by
  intro ts
  induction ts with
  | nil => exact ⟨[], rfl⟩
  | cons t rest ih =>
    obtain ⟨errs, he⟩ := ih
    by_cases hr : t.run w = true
    · exact ⟨errs, by simp [runTests, hr, he]⟩
    · by_cases hae : ae = true
      · exact ⟨[⟨path, t.name⟩], by simp [runTests, hr, hae]⟩
      · have hae2 : ae = false := by simpa using hae
        subst hae2
        exact ⟨⟨path, t.name⟩ :: errs, by simp [runTests, hr, he, except_map_ok]⟩

lemma runTests_collect_mem (path : String) (w : Value) :
    ∀ ts : List Test, ∀ t : Test, t ∈ ts → t.run w = false →
      ∃ errs, runTests false false path ts w = .ok errs ∧
        (⟨path, t.name⟩ : ErrEntry) ∈ errs := by
  intro ts
  induction ts with
  | nil => intro t h; cases h
  | cons a rest ih =>
    intro t hmem hrun
    rcases List.mem_cons.mp hmem with rfl | hmem2
    · obtain ⟨errs, he⟩ := runTests_async_false_ok false path w rest
      refine ⟨⟨path, t.name⟩ :: errs, ?_, List.mem_cons_self _ _⟩
      simp [runTests, hrun, he, except_map_ok]
    · by_cases hr : a.run w = true
      · obtain ⟨errs, he, hm⟩ := ih t hmem2 hrun
        exact ⟨errs, by simp [runTests, hr, he], hm⟩
      · obtain ⟨errs, he, hm⟩ := ih t hmem2 hrun
        refine ⟨⟨path, a.name⟩ :: errs, ?_, List.mem_cons_of_mem _ hm⟩
        simp [runTests, hr, he, except_map_ok]

lemma runTests_collect_shape (path : String) (w : Value) :
    ∀ ts : List Test, ∀ errs, runTests false false path ts w = .ok errs →
      ∀ e ∈ errs, ∃ t ∈ ts, t.name = e.check ∧ t.run w = false := by
  intro ts
  induction ts with
  | nil =>
    intro errs he e hmem
    cases he
    cases hmem
  | cons a rest ih =>
    intro errs he e hmem
    by_cases hr : a.run w = true
    · simp only [runTests, hr, Bool.false_and, Bool.false_eq_true, if_false, if_true] at he
      obtain ⟨t, ht, h1, h2⟩ := ih errs he e hmem
      exact ⟨t, List.mem_cons_of_mem _ ht, h1, h2⟩
    · obtain ⟨errs2, he2⟩ := runTests_async_false_ok false path w rest
      simp only [runTests, hr, Bool.false_and, Bool.false_eq_true, if_false, he2,
        except_map_ok] at he
      have hh := Except.ok.inj he
      subst hh
      rcases List.mem_cons.mp hmem with rfl | hmem2
      · exact ⟨a, List.mem_cons_self _ _, rfl, by simpa using hr⟩
      · obtain ⟨t, ht, h1, h2⟩ := ih errs2 he2 e hmem2
        exact ⟨t, List.mem_cons_of_mem _ ht, h1, h2⟩

lemma addTest_excl_mem (ts : List Test) (t u : Test) (hx : t.exclusive = true)
    (hu : u ∈ addTest ts t) (hn : u.name = t.name) : u = t := by
  simp only [addTest, hx, if_true] at hu
  rcases List.mem_append.mp hu with h | h
  · have := List.of_mem_filter h
    simp [hn] at this
  · simpa using h

lemma validateRun_ok (sync ae rec : Bool) (s : Schema) (v w : Value)
    (hc : castFuel FUEL s v false = .ok w)
    (hv : validateFuel FUEL sync ae rec "" s w = .ok []) :
    validateRun sync ae rec s v = .ok w := by
  simp [validateRun, hc, hv]

lemma validateRun_err (sync ae rec : Bool) (s : Schema) (v w : Value)
    (e : ErrEntry) (rest : List ErrEntry)
    (hc : castFuel FUEL s v false = .ok w)
    (hv : validateFuel FUEL sync ae rec "" s w = .ok (e :: rest)) :
    validateRun sync ae rec s v = .error (.validation (e :: rest)) := by
  simp [validateRun, hc, hv]

/-- C8: for a string schema with required() applied, validating the
empty string fails the required check (empty strings count as
missing), while the base mixed required() accepts the empty string and
rejects only undefined and null. -/
theorem c8_string_required_empty (s : Schema)
    (hty : s.ty = .string) (htr : s.transforms = []) :
    (⟨"", "required"⟩ : ErrEntry) ∈
        validationErrors (validateColl (s.required) (.str "")) ∧
    validateColl (mixedS.required) (.str "") = .ok (.str "") ∧
    validateColl (mixedS.required) .undef =
      .error (.validation [⟨"", "required"⟩]) ∧
    validateColl (mixedS.required) .null =
      .error (.validation [⟨"", "notNull"⟩]) := by
  refine ⟨?_, by decide, by decide, by decide⟩
  have hc : castFuel FUEL (s.required) (.str "") false = .ok (.str "") := by
    rw [show FUEL = 99 + 1 from rfl]
    exact castFuel_str_of_string 99 _ (by rw [required_ty, hty])
      (by rw [required_transforms, htr]) ""
  have hreq : requiredTest .string ∈ (s.required).tests := by
    rw [required_tests, hty]
    simp [addTest, requiredTest]
  have hrun : (requiredTest .string).run (.str "") = false := rfl
  obtain ⟨errs, he, hm⟩ :=
    runTests_collect_mem "" (.str "") (s.required).tests _ hreq hrun
  have hval : validateFuel FUEL false false true "" (s.required) (.str "") = .ok errs := by
    rw [show FUEL = 99 + 1 from rfl]
    simp only [validateFuel]
    rw [he]
    simp [except_bind_ok, required_ty, hty, typeCheckBase]
  cases errs with
  | nil => cases hm
  | cons e0 rest =>
    have hrr : validateColl (s.required) (.str "") = .error (.validation (e0 :: rest)) :=
      validateRun_err false false true _ _ _ e0 rest hc hval
    simpa [validationErrors, hrr] using hm

/-- C8 witness: the concrete string schema: validating the empty
string against string().required() produces the required failure,
while mixed().required() accepts the empty string and still rejects
undefined and null. -/
theorem c8_string_required_empty_w :
    (⟨"", "required"⟩ : ErrEntry) ∈
        validationErrors (validateColl (stringS.required) (.str "")) ∧
    validateColl (mixedS.required) (.str "") = .ok (.str "") ∧
    validateColl (mixedS.required) .undef =
      .error (.validation [⟨"", "required"⟩]) ∧
    validateColl (mixedS.required) .null =
      .error (.validation [⟨"", "notNull"⟩]) :=
  c8_string_required_empty stringS rfl rfl

lemma validateFuel_undef_opt (n : Nat) (sync ae rec : Bool) (path : String) (s : Schema)
    (hop : s.isOptional = true) (errs : List ErrEntry)
    (he : runTests sync ae path s.tests .undef = .ok errs) :
    validateFuel (n + 1) sync ae rec path s .undef = .ok errs := by
  simp only [validateFuel, he, except_bind_ok]
  cases hsty : s.ty <;> simp [hop, hsty]

/-- C9: the oneOf check never fails on undefined: for any schema with
only built-in transforms and no default, validating undefined with
oneOf applied produces no oneOf failure whatever the allowed values
are; the mixed() example accepts undefined outright, and rejecting
undefined requires required(), which then fails with the required
check, not the oneOf check. -/
theorem c9_oneof_undefined (s : Schema) (vals : List Value)
    (htr : s.transforms = []) (hd : s.defaultVal = none) :
    (∀ e ∈ validationErrors (validateColl (s.oneOf vals) .undef), e.check ≠ "oneOf") ∧
    validateD (mixedS.oneOf vals) .undef = .ok .undef ∧
    validateD ((mixedS.oneOf vals).required) .undef =
      .error (.validation [⟨"", "required"⟩]) := by
  have honeof : (oneOfTest vals).run .undef = true := by simp [oneOfTest]
  refine ⟨?_, ?_, ?_⟩
  · have hc : castFuel FUEL (s.oneOf vals) .undef false = .ok .undef := by
      rw [show FUEL = 99 + 1 from rfl]
      exact castFuel_undef 99 _ (by simp [Schema.oneOf, test_transforms, htr])
        (by simp [Schema.oneOf, test_defaultVal, hd])
    by_cases hop : (s.oneOf vals).isOptional = true
    · obtain ⟨errs, he⟩ := runTests_async_false_ok false "" .undef (s.oneOf vals).tests
      have hval : validateFuel FUEL false false true "" (s.oneOf vals) .undef = .ok errs := by
        rw [show FUEL = 99 + 1 from rfl]
        exact validateFuel_undef_opt 99 false false true "" _ hop errs he
      intro e hmem
      cases errs with
      | nil =>
        have hrr : validateColl (s.oneOf vals) .undef = .ok .undef :=
          validateRun_ok false false true _ _ _ hc hval
        simp [validationErrors, hrr] at hmem
      | cons e0 rest =>
        have hrr : validateColl (s.oneOf vals) .undef = .error (.validation (e0 :: rest)) :=
          validateRun_err false false true _ _ _ e0 rest hc hval
        rw [hrr] at hmem
        simp only [validationErrors] at hmem
        obtain ⟨t, ht, hname, hfail⟩ :=
          runTests_collect_shape "" .undef (s.oneOf vals).tests (e0 :: rest) he e hmem
        intro hcheck
        have htests : (s.oneOf vals).tests = addTest s.tests (oneOfTest vals) := by
          simp [Schema.oneOf, test_tests]
        rw [htests] at ht
        have hteq : t = oneOfTest vals := by
          refine addTest_excl_mem s.tests (oneOfTest vals) t rfl ht ?_
          rw [hname, hcheck]
          rfl
        rw [hteq, honeof] at hfail
        cases hfail
    · have hop2 : (s.oneOf vals).isOptional = false := by simpa using hop
      have hval : validateFuel FUEL false false true "" (s.oneOf vals) .undef =
          .ok [⟨"", "required"⟩] := by
        rw [show FUEL = 99 + 1 from rfl]
        simp [validateFuel, hop2]
      have hrr : validateColl (s.oneOf vals) .undef =
          .error (.validation [⟨"", "required"⟩]) :=
        validateRun_err false false true _ _ _ _ _ hc hval
      intro e hmem
      rw [hrr] at hmem
      simp only [validationErrors, List.mem_singleton] at hmem
      rw [hmem]
      decide
  · have hc : castFuel FUEL (mixedS.oneOf vals) .undef false = .ok .undef := by
      rw [show FUEL = 99 + 1 from rfl]
      exact castFuel_undef 99 _ rfl rfl
    have hrt : runTests false true "" (mixedS.oneOf vals).tests .undef = .ok [] := by
      simp [runTests, honeof, Schema.oneOf, test_tests, addTest, oneOfTest]
    have hval : validateFuel FUEL false true true "" (mixedS.oneOf vals) .undef = .ok [] := by
      rw [show FUEL = 99 + 1 from rfl]
      exact validateFuel_undef_opt 99 false true true "" (mixedS.oneOf vals) rfl [] hrt
    exact validateRun_ok false true true _ _ _ hc hval
  · have hc : castFuel FUEL ((mixedS.oneOf vals).required) .undef false = .ok .undef := by
      rw [show FUEL = 99 + 1 from rfl]
      exact castFuel_undef 99 _ rfl rfl
    have hval : validateFuel FUEL false true true "" ((mixedS.oneOf vals).required) .undef =
        .ok [⟨"", "required"⟩] := by
      rw [show FUEL = 99 + 1 from rfl]
      simp [validateFuel, required_isOptional]
    exact validateRun_err false true true _ _ _ _ _ hc hval

/-- C9 witness: oneOf on a concrete value set: validating undefined
yields no oneOf failure for a plain mixed schema, undefined is
accepted outright, and with required() added the rejection comes from
the required check. -/
theorem c9_oneof_undefined_w :
    (∀ e ∈ validationErrors (validateColl (mixedS.oneOf [.str "jimmy", .num 42]) .undef),
      e.check ≠ "oneOf") ∧
    validateD (mixedS.oneOf [.str "jimmy", .num 42]) .undef = .ok .undef ∧
    validateD ((mixedS.oneOf [.str "jimmy", .num 42]).required) .undef =
      .error (.validation [⟨"", "required"⟩]) :=
  c9_oneof_undefined mixedS [.str "jimmy", .num 42] rfl rfl


/-- Modelled from the spec: the documented result of a failed cast per
variant: numbers fall back to the NaN-like marker, dates to the
invalid-date sentinel, every other variant keeps the input value. -/
def failFallback (ty : STy) (v : Value) : Value :=
  match ty with
  | .number => .nan
  | .date => .invalidDate
  | _ => v

lemma coerce_ne_undef (ty : STy) (v : Value) (hu : v ≠ .undef) : coerce ty v ≠ .undef := by
  cases ty <;> cases v <;>
    simp_all [coerce, coerceString, coerceNumber, coerceBool, coerceDate, typeCheckBase] <;>
    split <;> simp

lemma coerce_ne_null (ty : STy) (v : Value) (hn : v ≠ .null) : coerce ty v ≠ .null := by
  cases ty <;> cases v <;>
    simp_all [coerce, coerceString, coerceNumber, coerceBool, coerceDate, typeCheckBase] <;>
    split <;> simp

lemma coerce_fail_policy (ty : STy) (v : Value) (hu : v ≠ .undef) (hn : v ≠ .null)
    (hw : typeCheckBase ty (coerce ty v) = false) : coerce ty v = failFallback ty v := by
  cases ty <;> cases v <;>
    simp_all [coerce, coerceString, coerceNumber, coerceBool, coerceDate,
      typeCheckBase, failFallback] <;>
    split <;> simp_all [typeCheckBase]

lemma castFuel_fail_finish (n : Nat) (s : Schema) (v : Value) (assert : Bool)
    (hne : ∀ kvs, ¬(s.ty = .object ∧ castRaw s v = .obj kvs))
    (hna : ∀ xs, ¬(s.ty = .array ∧ castRaw s v = .arr xs)) :
    castFuel (n + 1) s v assert =
      (if isTypeFull s (castRaw s v) then .ok (castRaw s v)
       else if assert then .error .castType else .ok (castRaw s v)) := by
  cases hty : s.ty <;> cases hcv : castRaw s v <;>
    first
      | exact (hne _ ⟨hty, hcv⟩).elim
      | exact (hna _ ⟨hty, hcv⟩).elim
      | simp [castFuel, hty, hcv]

/-- C1 (amended): when cast's transformed result fails the bare
typeCheck and is neither a permitted nullable null nor a permitted
optional undefined, the asserting cast raises a cast type error and
the non-asserting cast returns the transformed result; for built-in
pipelines (no custom transforms) on a non-absent input that result is
the per-variant fallback: the NaN-like marker for number schemas, the
invalid-date sentinel for date schemas, and the original untransformed
input for every other variant. -/
theorem c1_cast_failure_policy (s : Schema) (v : Value)
    (htr : s.transforms = []) (hu : v ≠ .undef) (hn : v ≠ .null)
    (hw : typeCheckBase s.ty (castRaw s v) = false) :
    castRaw s v = failFallback s.ty v ∧
    castV s v true = .error .castType ∧
    castV s v false = .ok (failFallback s.ty v) := by
  have hcr : castRaw s v = coerce s.ty v := by
    have hcne := coerce_ne_undef s.ty v hu
    simp [castRaw, applyTransforms, htr, hcne]
  rw [hcr] at hw
  have hpol : coerce s.ty v = failFallback s.ty v := coerce_fail_policy s.ty v hu hn hw
  have hnull := coerce_ne_null s.ty v hn
  have hundef := coerce_ne_undef s.ty v hu
  have hitf : isTypeFull s (castRaw s v) = false := by
    rw [hcr]
    simp [isTypeFull, hw, hnull, hundef]
  have hne : ∀ kvs, ¬(s.ty = .object ∧ castRaw s v = .obj kvs) := by
    rintro kvs ⟨h1, h2⟩
    rw [hcr] at h2
    rw [h2, h1] at hw
    simp [typeCheckBase] at hw
  have hna : ∀ xs, ¬(s.ty = .array ∧ castRaw s v = .arr xs) := by
    rintro xs ⟨h1, h2⟩
    rw [hcr] at h2
    rw [h2, h1] at hw
    simp [typeCheckBase] at hw
  have hfin := fun assert => castFuel_fail_finish 99 s v assert hne hna
  refine ⟨hcr.trans hpol, ?_, ?_⟩
  · show castFuel FUEL s v true = .error .castType
    rw [show FUEL = 99 + 1 from rfl, hfin true, hitf]
    simp
  · show castFuel FUEL s v false = .ok (failFallback s.ty v)
    rw [show FUEL = 99 + 1 from rfl, hfin false, hitf]
    simp [hcr.trans hpol]

/-- C1 witness: the number schema on a non-numeric string: the
transformed result NaN fails the type check; the asserting cast raises
the cast type error and the non-asserting cast returns the NaN-like
marker, which is the documented number fallback. -/
theorem c1_cast_failure_policy_w :
    castRaw numberS (.str "abc") = failFallback numberS.ty (.str "abc") ∧
    castV numberS (.str "abc") true = .error .castType ∧
    castV numberS (.str "abc") false = .ok (failFallback numberS.ty (.str "abc")) :=
  c1_cast_failure_policy numberS (.str "abc") rfl (by decide) (by decide) (by decide)


lemma lookupKV_append_some (k : String) (u : Value) :
    ∀ xs ys : List (String × Value), lookupKV k xs = some u →
      lookupKV k (xs ++ ys) = some u := by
  intro xs ys
  induction xs with
  | nil => intro h; cases h
  | cons a rest ih =>
    obtain ⟨l, x⟩ := a
    intro h
    by_cases hl : l = k
    · simp only [lookupKV, hl, if_pos rfl] at h ⊢
      exact h
    · simp only [lookupKV, hl, if_neg hl, List.cons_append] at h ⊢
      exact ih h

lemma lookupKV_append_none (k : String) :
    ∀ xs ys : List (String × Value), lookupKV k xs = none →
      lookupKV k (xs ++ ys) = lookupKV k ys := by
  intro xs ys
  induction xs with
  | nil => intro _; rfl
  | cons a rest ih =>
    obtain ⟨l, x⟩ := a
    intro h
    by_cases hl : l = k
    · simp [lookupKV, hl] at h
    · simp only [lookupKV, if_neg hl, List.cons_append] at h ⊢
      exact ih h

lemma lookupKV_none_keys (k : String) :
    ∀ l : List (String × Value), (∀ kv ∈ l, kv.1 ≠ k) → lookupKV k l = none := by
  intro l
  induction l with
  | nil => intro _; rfl
  | cons a rest ih =>
    intro h
    obtain ⟨l2, x⟩ := a
    have h1 : l2 ≠ k := h (l2, x) (List.mem_cons_self _ _)
    simp only [lookupKV, if_neg h1]
    exact ih fun kv hkv => h kv (List.mem_cons_of_mem _ hkv)

lemma lookupKV_filter_names (names : List String) (k : String) (hk : names.contains k = true)
    (kvs : List (String × Value)) :
    lookupKV k (kvs.filter (fun kv => !names.contains kv.1)) = none := by
  refine lookupKV_none_keys k _ ?_
  intro kv hkv hcon
  have := List.of_mem_filter hkv
  rw [hcon, hk] at this
  cases this

lemma schemaNoCustom_decomp (s : Schema) (h : schemaNoCustom s = true) :
    s.transforms = [] ∧ fieldsNoCustom s.fields = true ∧ innerNoCustom s.inner = true := by
  cases s with
  | mk ty n o st tr ts d fs i =>
    simp only [schemaNoCustom, Bool.and_eq_true, List.isEmpty_iff] at h
    exact ⟨h.1.1, h.1.2, h.2⟩

lemma schemaWF_decomp (s : Schema) (h : schemaWF s = true) :
    (s.fields.map (fun kf => kf.1)).Nodup ∧ fieldsWF s.fields = true ∧
      innerWF s.inner = true := by
  cases s with
  | mk ty n o st tr ts d fs i =>
    simp only [schemaWF, Bool.and_eq_true, decide_eq_true_eq] at h
    exact ⟨h.1.1, h.1.2, h.2⟩

lemma fieldsNoCustom_mem :
    ∀ fs : List (String × Field), fieldsNoCustom fs = true →
      ∀ kf ∈ fs, fieldNoCustom kf.2 = true := by
  intro fs
  induction fs with
  | nil => intro _ kf h; cases h
  | cons a rest ih =>
    obtain ⟨k, f⟩ := a
    intro h kf hk
    simp only [fieldsNoCustom, Bool.and_eq_true] at h
    rcases List.mem_cons.mp hk with rfl | hk2
    · exact h.1
    · exact ih h.2 kf hk2

lemma fieldsWF_mem :
    ∀ fs : List (String × Field), fieldsWF fs = true →
      ∀ kf ∈ fs, fieldWF kf.2 = true := by
  intro fs
  induction fs with
  | nil => intro _ kf h; cases h
  | cons a rest ih =>
    obtain ⟨k, f⟩ := a
    intro h kf hk
    simp only [fieldsWF, Bool.and_eq_true] at h
    rcases List.mem_cons.mp hk with rfl | hk2
    · exact h.1
    · exact ih h.2 kf hk2

lemma removeKey_perm :
    ∀ pending : List (String × Field), (pending.map (fun kf => kf.1)).Nodup →
      ∀ kf ∈ pending, pending.Perm (kf :: removeKey kf.1 pending) := by
  intro pending
  induction pending with
  | nil => intro _ kf h; cases h
  | cons a rest ih =>
    obtain ⟨l, f⟩ := a
    intro hnd kf hmem
    simp only [List.map_cons, List.nodup_cons] at hnd
    rcases List.mem_cons.mp hmem with rfl | hmem2
    · simp [removeKey]
    · have hne : l ≠ kf.1 := by
        intro he
        exact hnd.1 (he ▸ List.mem_map_of_mem (fun kf => kf.1) hmem2)
      simp only [removeKey, if_neg (fun hh => hne hh)]
      exact ((ih hnd.2 kf hmem2).cons (l, f)).trans (List.Perm.swap _ _ _)

lemma orderFieldsGo_perm (names : List String) :
    ∀ fuel : Nat, ∀ done pending acc out,
      (pending.map (fun kf => kf.1)).Nodup →
      orderFieldsGo names fuel done pending acc = some out →
      out.Perm (acc.reverse ++ pending) := by
  intro fuel
  induction fuel with
  | zero =>
    intro done pending acc out hnd h
    cases pending with
    | nil =>
      simp only [orderFieldsGo] at h
      cases h
      simp
    | cons a rest => cases h
  | succ fuel ih =>
    intro done pending acc out hnd h
    cases pending with
    | nil =>
      simp only [orderFieldsGo] at h
      cases h
      simp
    | cons a rest =>
      simp only [orderFieldsGo] at h
      cases hfind : List.find? (fun kf => fieldDepOk names done kf.2) (a :: rest) with
      | none => rw [hfind] at h; cases h
      | some kf =>
        rw [hfind] at h
        have hmem : kf ∈ a :: rest := List.mem_of_find?_eq_some hfind
        have hperm := removeKey_perm (a :: rest) hnd kf hmem
        have hnd2 : ((removeKey kf.1 (a :: rest)).map (fun kf => kf.1)).Nodup := by
          have := (hperm.map (fun kf => kf.1)).nodup_iff.mp hnd
          simp only [List.map_cons, List.nodup_cons] at this
          exact this.2
        have := ih (kf.1 :: done) (removeKey kf.1 (a :: rest)) (kf :: acc) out hnd2 h
        refine this.trans ?_
        simp only [List.reverse_cons, List.append_assoc]
        exact List.Perm.append_left acc.reverse hperm.symm

lemma orderFields_perm (fs : List (String × Field)) (ord : List (String × Field))
    (hnd : (fs.map (fun kf => kf.1)).Nodup) (h : orderFields fs = some ord) :
    ord.Perm fs := by
  simp only [orderFields] at h
  have := orderFieldsGo_perm (fs.map (fun kf => kf.1)) fs.length [] fs [] ord hnd h
  simpa using this

lemma castFields_extends :
    ∀ n : Nat, ∀ ord input acc out assert,
      castFieldsFuel n ord input acc assert = .ok out →
      ∃ tail, out = acc ++ tail := by
  intro n
  induction n with
  | zero =>
    intro ord input acc out assert h
    cases h
  | succ n ih =>
    intro ord input acc out assert h
    cases ord with
    | nil =>
      simp only [castFieldsFuel] at h
      cases h
      exact ⟨[], by simp⟩
    | cons a rest =>
      obtain ⟨k, f⟩ := a
      cases f with
      | fieldRef p =>
        simp only [castFieldsFuel] at h
        obtain ⟨tail, ht⟩ := ih rest input _ out assert h
        exact ⟨(k, resolvePath p (.obj acc)) :: tail, by simp [ht]⟩
      | sub cs =>
        simp only [castFieldsFuel] at h
        by_cases hst : cs.stripFlag = true
        · rw [if_pos hst] at h
          exact ih rest input acc out assert h
        · rw [if_neg hst] at h
          cases hcf : castFuel n cs ((lookupKV k input).getD .undef) assert with
          | error e => rw [hcf] at h; cases h
          | ok u =>
            rw [hcf] at h
            simp only [except_bind_ok] at h
            obtain ⟨tail, ht⟩ := ih rest input _ out assert h
            exact ⟨(k, u) :: tail, by simp [ht]⟩

lemma castFields_keys :
    ∀ n : Nat, ∀ ord input acc out assert,
      castFieldsFuel n ord input acc assert = .ok out →
      ∀ kv ∈ out, kv.1 ∈ acc.map (fun kv => kv.1) ∨ kv.1 ∈ ord.map (fun kf => kf.1) := by
  intro n
  induction n with
  | zero => intro ord input acc out assert h; cases h
  | succ n ih =>
    intro ord input acc out assert h kv hkv
    cases ord with
    | nil =>
      simp only [castFieldsFuel] at h
      cases h
      exact Or.inl (List.mem_map_of_mem _ hkv)
    | cons a rest =>
      obtain ⟨k, f⟩ := a
      cases f with
      | fieldRef p =>
        simp only [castFieldsFuel] at h
        rcases ih rest input _ out assert h kv hkv with hl | hr
        · simp only [List.map_append, List.mem_append] at hl
          rcases hl with hl1 | hl2
          · exact Or.inl hl1
          · simp only [List.map_cons, List.mem_singleton] at hl2
            simp only [List.map_cons, List.mem_cons]
            right
            left
            simpa using hl2
        · exact Or.inr (List.mem_cons_of_mem _ hr)
      | sub cs =>
        simp only [castFieldsFuel] at h
        by_cases hst : cs.stripFlag = true
        · rw [if_pos hst] at h
          rcases ih rest input acc out assert h kv hkv with hl | hr
          · exact Or.inl hl
          · exact Or.inr (List.mem_cons_of_mem _ hr)
        · rw [if_neg hst] at h
          cases hcf : castFuel n cs ((lookupKV k input).getD .undef) assert with
          | error e => rw [hcf] at h; cases h
          | ok u =>
            rw [hcf] at h
            simp only [except_bind_ok] at h
            rcases ih rest input _ out assert h kv hkv with hl | hr
            · simp only [List.map_append, List.mem_append] at hl
              rcases hl with hl1 | hl2
              · exact Or.inl hl1
              · simp only [List.map_cons, List.mem_singleton] at hl2
                simp only [List.map_cons, List.mem_cons]
                right
                left
                simpa using hl2
            · exact Or.inr (List.mem_cons_of_mem _ hr)

lemma coerce_typeCheck_fix (ty : STy) (w : Value) (h : typeCheckBase ty w = true) :
    coerce ty w = w := by
  simp [coerce, h]

lemma coerce_null_fix (ty : STy) : coerce ty .null = .null := by
  cases ty <;> simp [coerce, typeCheckBase]

lemma castRaw_fix (s : Schema) (v w : Value) (htr : s.transforms = [])
    (hrun : castRaw s v = w) (hit : isTypeFull s w = true) :
    castRaw s w = w := by
  by_cases hwu : w = .undef
  · subst hwu
    have hdef : (match s.defaultVal with | some d => d | none => Value.undef) = .undef := by
      by_cases hcu : coerce s.ty v = .undef
      · simpa [castRaw, applyTransforms, htr, hcu] using hrun
      · simp [castRaw, applyTransforms, htr, hcu] at hrun
    simp [castRaw, applyTransforms, htr, coerce_undef, hdef]
  · have hc : coerce s.ty w = w := by
      simp only [isTypeFull, Bool.or_eq_true, Bool.and_eq_true, decide_eq_true_eq] at hit
      rcases hit with (ht | ⟨hn, _⟩) | ⟨hu, _⟩
      · exact coerce_typeCheck_fix s.ty w ht
      · rw [hn]; exact coerce_null_fix s.ty
      · exact absurd hu hwu
    simp [castRaw, applyTransforms, htr, hc, hwu]

lemma castRaw_obj_fix (s : Schema) (l : List (String × Value)) (htr : s.transforms = [])
    (hty : s.ty = .object) : castRaw s (.obj l) = .obj l := by
  simp [castRaw, applyTransforms, htr, coerce, hty, typeCheckBase]

lemma castRaw_arr_fix (s : Schema) (l : List Value) (htr : s.transforms = [])
    (hty : s.ty = .array) : castRaw s (.arr l) = .arr l := by
  simp [castRaw, applyTransforms, htr, coerce, hty, typeCheckBase]

lemma contains_of_mem {k : String} {l : List String} (h : k ∈ l) : l.contains k = true := by
  induction l with
  | nil => cases h
  | cons a rest ih =>
    rcases List.mem_cons.mp h with rfl | h2
    · simp [List.contains_cons]
    · simp only [List.contains_cons, Bool.or_eq_true]
      exact Or.inr (ih h2)

lemma castIdem_scalar (n : Nat) (s : Schema) (v w : Value) (htr : s.transforms = [])
    (hvw : castRaw s v = w) (hit : isTypeFull s w = true)
    (hne : ∀ kvs, ¬(s.ty = .object ∧ w = .obj kvs))
    (hna : ∀ xs, ¬(s.ty = .array ∧ w = .arr xs)) :
    castFuel (n + 1) s w true = .ok w := by
  have hcr : castRaw s w = w := castRaw_fix s v w htr hvw hit
  have hne2 : ∀ kvs, ¬(s.ty = .object ∧ castRaw s w = .obj kvs) := by
    rintro kvs ⟨h1, h2⟩
    rw [hcr] at h2
    exact hne kvs ⟨h1, h2⟩
  have hna2 : ∀ xs, ¬(s.ty = .array ∧ castRaw s w = .arr xs) := by
    rintro xs ⟨h1, h2⟩
    rw [hcr] at h2
    exact hna xs ⟨h1, h2⟩
  rw [castFuel_fail_finish n s w true hne2 hna2, hcr, hit]
  simp

lemma castIdem :
    ∀ n : Nat,
      (∀ s v w, schemaWF s = true → schemaNoCustom s = true →
        castFuel n s v true = .ok w → castFuel n s w true = .ok w) ∧
      (∀ ord input input2 acc out,
        (∀ kf ∈ ord, fieldWF kf.2 = true ∧ fieldNoCustom kf.2 = true) →
        (ord.map (fun kf => kf.1)).Nodup →
        (∀ k ∈ ord.map (fun kf => kf.1), lookupKV k acc = none) →
        castFieldsFuel n ord input acc true = .ok out →
        (∀ k ∈ ord.map (fun kf => kf.1), lookupKV k input2 = lookupKV k out) →
        castFieldsFuel n ord input2 acc true = .ok out) ∧
      (∀ cs xs ys, schemaWF cs = true → schemaNoCustom cs = true →
        castElemsFuel n cs xs true = .ok ys → castElemsFuel n cs ys true = .ok ys) := by
  intro n
  induction n with
  | zero =>
    refine ⟨?_, ?_, ?_⟩ <;> intros <;> simp_all [castFuel, castFieldsFuel, castElemsFuel]
  | succ n ih =>
    obtain ⟨ih1, ih2, ih3⟩ := ih
    refine ⟨?_, ?_, ?_⟩
    · intro s v w hwf hnc hrun
      obtain ⟨htr, hfnc, hinc⟩ := schemaNoCustom_decomp s hnc
      obtain ⟨hnd, hfwf, hiwf⟩ := schemaWF_decomp s hwf
      simp only [castFuel] at hrun
      split at hrun
      · -- object schema on an object transformed value
        rename_i kvs hty hcv
        split at hrun
        · simp at hrun
        · rename_i ord hord
          cases hcf : castFieldsFuel n ord kvs [] true with
          | error e => rw [hcf] at hrun; simp [except_map_error] at hrun
          | ok outFs =>
            rw [hcf, except_map_ok] at hrun
            have hw : w =
                .obj (outFs ++ kvs.filter
                  (fun kv => !(s.fields.map (fun kf => kf.1)).contains kv.1)) :=
              (Except.ok.inj hrun).symm
            have hperm := orderFields_perm s.fields ord hnd hord
            have hordnd : (ord.map (fun kf => kf.1)).Nodup :=
              ((hperm.map (fun kf => kf.1)).nodup_iff).mpr hnd
            have hordsub : ∀ k ∈ ord.map (fun kf => kf.1),
                k ∈ s.fields.map (fun kf => kf.1) := by
              intro k hk
              exact ((hperm.map (fun kf => kf.1)).mem_iff).mp hk
            have hfok : ∀ kf ∈ ord, fieldWF kf.2 = true ∧ fieldNoCustom kf.2 = true := by
              intro kf hk
              have hm : kf ∈ s.fields := hperm.mem_iff.mp hk
              exact ⟨fieldsWF_mem s.fields hfwf kf hm, fieldsNoCustom_mem s.fields hfnc kf hm⟩
            have hagree : ∀ k ∈ ord.map (fun kf => kf.1),
                lookupKV k (outFs ++ kvs.filter
                  (fun kv => !(s.fields.map (fun kf => kf.1)).contains kv.1)) =
                  lookupKV k outFs := by
              intro k hk
              cases hlk : lookupKV k outFs with
              | some u => exact lookupKV_append_some k u _ _ hlk
              | none =>
                rw [lookupKV_append_none k _ _ hlk]
                exact lookupKV_filter_names _ k (contains_of_mem (hordsub k hk)) kvs
            have hfix : castFieldsFuel n ord
                (outFs ++ kvs.filter
                  (fun kv => !(s.fields.map (fun kf => kf.1)).contains kv.1)) [] true =
                .ok outFs :=
              ih2 ord kvs _ [] outFs hfok hordnd (fun k _ => rfl) hcf hagree
            have hfilter : (outFs ++ kvs.filter
                  (fun kv => !(s.fields.map (fun kf => kf.1)).contains kv.1)).filter
                  (fun kv => !(s.fields.map (fun kf => kf.1)).contains kv.1) =
                kvs.filter (fun kv => !(s.fields.map (fun kf => kf.1)).contains kv.1) := by
              rw [List.filter_append]
              have h1 : outFs.filter
                  (fun kv => !(s.fields.map (fun kf => kf.1)).contains kv.1) = [] := by
                rw [List.filter_eq_nil_iff]
                intro kv hkv
                rcases castFields_keys n ord kvs [] outFs true hcf kv hkv with h | h
                · simp at h
                · rw [contains_of_mem (hordsub kv.1 h)]
                  decide
              have h2 : (kvs.filter
                    (fun kv => !(s.fields.map (fun kf => kf.1)).contains kv.1)).filter
                  (fun kv => !(s.fields.map (fun kf => kf.1)).contains kv.1) =
                  kvs.filter (fun kv => !(s.fields.map (fun kf => kf.1)).contains kv.1) := by
                rw [List.filter_eq_self]
                intro kv hkv
                exact (List.mem_filter.mp hkv).2
              rw [h1, h2, List.nil_append]
            rw [hw]
            simp only [castFuel, castRaw_obj_fix s _ htr hty, hty, hord, hfix,
              except_map_ok, hfilter]
      · -- array schema on an array transformed value
        rename_i xs hty hcv
        split at hrun
        · rename_i hin
          have hw : w = .arr xs := (Except.ok.inj hrun).symm
          rw [hw]
          simp only [castFuel, castRaw_arr_fix s _ htr hty, hty, hin]
        · rename_i cs hin
          cases hce : castElemsFuel n cs xs true with
          | error e => rw [hce] at hrun; simp [except_map_error] at hrun
          | ok ys =>
            rw [hce, except_map_ok] at hrun
            have hw : w = .arr ys := (Except.ok.inj hrun).symm
            have hcswf : schemaWF cs = true := by
              rw [hin] at hiwf
              simpa [innerWF] using hiwf
            have hcsnc : schemaNoCustom cs = true := by
              rw [hin] at hinc
              simpa [innerNoCustom] using hinc
            have hfix := ih3 cs xs ys hcswf hcsnc hce
            rw [hw]
            simp only [castFuel, castRaw_arr_fix s _ htr hty, hty, hin, hfix, except_map_ok]
      · -- scalar finish
        rename_i hno hna
        split at hrun
        · rename_i hit
          have hw : w = castRaw s v := (Except.ok.inj hrun).symm
          subst hw
          exact castIdem_scalar n s v _ htr rfl hit
            (fun kvs hk => hno kvs hk.1 hk.2) (fun xs hk => hna xs hk.1 hk.2)
        · simp at hrun
    · intro ord input input2 acc out hf hnd hacc hrun hagree
      cases ord with
      | nil =>
        simp only [castFieldsFuel] at hrun ⊢
        exact hrun
      | cons a rest =>
        obtain ⟨k, f⟩ := a
        have hndk : k ∉ rest.map (fun kf => kf.1) ∧ (rest.map (fun kf => kf.1)).Nodup := by
          simpa [List.map_cons, List.nodup_cons] using hnd
        cases f with
        | fieldRef p =>
          simp only [castFieldsFuel] at hrun ⊢
          refine ih2 rest input input2 (acc ++ [(k, resolvePath p (.obj acc))]) out
            (fun kf hk => hf kf (List.mem_cons_of_mem _ hk)) hndk.2 ?_ hrun
            (fun k2 hk2 => hagree k2 (by simp [hk2]))
          intro k2 hk2
          rw [lookupKV_append_none k2 acc _ (hacc k2 (by simp [hk2]))]
          have hne : k ≠ k2 := by
            intro he
            exact hndk.1 (he ▸ hk2)
          simp [lookupKV, hne]
        | sub cs =>
          simp only [castFieldsFuel] at hrun ⊢
          by_cases hst : cs.stripFlag = true
          · rw [if_pos hst] at hrun ⊢
            exact ih2 rest input input2 acc out
              (fun kf hk => hf kf (List.mem_cons_of_mem _ hk)) hndk.2
              (fun k2 hk2 => hacc k2 (by simp [hk2])) hrun
              (fun k2 hk2 => hagree k2 (by simp [hk2]))
          · rw [if_neg hst] at hrun ⊢
            cases hcf : castFuel n cs ((lookupKV k input).getD .undef) true with
            | error e => rw [hcf] at hrun; cases hrun
            | ok u =>
              rw [hcf, except_bind_ok] at hrun
              have hfh := hf (k, .sub cs) (List.mem_cons_self _ _)
              have hcswf : schemaWF cs = true := by simpa [fieldWF] using hfh.1
              have hcsnc : schemaNoCustom cs = true := by simpa [fieldNoCustom] using hfh.2
              have hufix : castFuel n cs u true = .ok u :=
                ih1 cs ((lookupKV k input).getD .undef) u hcswf hcsnc hcf
              have hlookout : lookupKV k out = some u := by
                obtain ⟨tail, ht⟩ := castFields_extends n rest input _ out true hrun
                rw [ht, List.append_assoc]
                rw [lookupKV_append_none k acc _ (hacc k (by simp))]
                simp [lookupKV]
              have hval2 : (lookupKV k input2).getD .undef = u := by
                rw [hagree k (by simp), hlookout]
                rfl
              rw [hval2, hufix, except_bind_ok]
              refine ih2 rest input input2 (acc ++ [(k, u)]) out
                (fun kf hk => hf kf (List.mem_cons_of_mem _ hk)) hndk.2 ?_ hrun
                (fun k2 hk2 => hagree k2 (by simp [hk2]))
              intro k2 hk2
              rw [lookupKV_append_none k2 acc _ (hacc k2 (by simp [hk2]))]
              have hne : k ≠ k2 := by
                intro he
                exact hndk.1 (he ▸ hk2)
              simp [lookupKV, hne]
    · intro cs xs ys hwf hnc hrun
      cases xs with
      | nil =>
        simp only [castElemsFuel] at hrun
        obtain rfl : ([] : List Value) = ys := Except.ok.inj hrun
        simp [castElemsFuel]
      | cons x rest =>
        simp only [castElemsFuel] at hrun
        cases hcf : castFuel n cs x true with
        | error e => rw [hcf] at hrun; cases hrun
        | ok y =>
          rw [hcf, except_bind_ok] at hrun
          cases hce : castElemsFuel n cs rest true with
          | error e => rw [hce] at hrun; simp [except_map_error] at hrun
          | ok ys2 =>
            rw [hce, except_map_ok] at hrun
            have hw : ys = y :: ys2 := (Except.ok.inj hrun).symm
            subst hw
            simp only [castElemsFuel]
            rw [ih1 cs x y hwf hnc hcf, except_bind_ok, ih3 cs rest ys2 hwf hnc hce,
              except_map_ok]

/-- C6 (amended): for schemas whose pipelines are the built-in
coercions only (no custom transforms anywhere in the tree) and whose
object shapes have distinct field names, the asserting cast is
idempotent: every successful cast result is a fixpoint of cast, i.e.
once a value conforms, casting the cast result returns it unchanged. -/
theorem c6_cast_idempotent (s : Schema) (v w : Value)
    (hwf : schemaWF s = true) (hnc : schemaNoCustom s = true)
    (h : castV s v true = .ok w) : castV s w true = .ok w :=
  (castIdem FUEL).1 s v w hwf hnc h

/-- C6 witness: the strip-example object schema: casting the cast
output again returns it unchanged, through the object recursion. -/
theorem c6_cast_idempotent_w :
    castV stripSchema (.obj [("useThis", .num 4)]) true =
      .ok (.obj [("useThis", .num 4)]) :=
  c6_cast_idempotent stripSchema (.obj [("notThis", .str "foo"), ("useThis", .num 4)])
    (.obj [("useThis", .num 4)]) (by decide) (by decide) (by decide)


end YupModel
